import Mathlib

/-!
Verification of the Kagyur text-splitter
(`src/wikisource/text_operations/text_splitter_txt/kagyur_splitter.py`).

Lines are modelled as `List Char`.  The five compiled regular expressions of
the source are embedded as deterministic matchers: each of the patterns
(`\[\d+[a-z]\]`, `\[\d+[a-z]\.\d+\]`, `\{D\d+-\d+\}`, `\{D(\d+)([a-z])?\}`,
`\{([^,}]+),([^}]+)\}`) is backtracking-free because every greedy character
class is disjoint from the character required next, so the leftmost-match
semantics of Python `re` is captured exactly by a maximal-munch scan.
Python's `\d` and `[a-z]` are modelled as the ASCII classes `Char.isDigit`
and `Char.isLower` (the Tibetan corpus contains no other Unicode decimal
digits).  `re.sub` is the usual leftmost non-overlapping scan that restarts
after each replacement; it is embedded as a fuel-indexed scanner whose fuel
is the length of the string, which is always sufficient since every match
consumes at least one character.
-/

namespace KagyurSplitter

abbrev Line := List Char

/-- Matcher for the tail of `BRACKET_PAGE_RE` after `[` and one digit:
consumes further digits, then one lowercase letter, then `]`, returning the
rest of the string. -/
def pageAfter : Line → Option Line
  | [] => none
  | c :: cs =>
    if c.isDigit then pageAfter cs
    else if c.isLower then
      match cs with
      | d :: r => if d = ']' then some r else none
      | [] => none
    else none

/-- Matcher for `BRACKET_PAGE_RE = \[\d+[a-z]\]` anchored at the head of the
string; returns the remainder after the match. -/
def matchPage : Line → Option Line
  | a :: b :: cs => if a = '[' then (if b.isDigit then pageAfter (b :: cs) else none) else none
  | _ => none

/-- Matcher for the final `\d*\]` part of `BRACKET_WITH_DOT_RE`. -/
def dotClose : Line → Option Line
  | [] => none
  | c :: cs => if c.isDigit then dotClose cs else if c = ']' then some cs else none

/-- Matcher for the tail of `BRACKET_WITH_DOT_RE` after `[` and one digit:
digits, one lowercase letter, a literal dot, then at least one digit and `]`. -/
def dotAfter : Line → Option Line
  | [] => none
  | c :: cs =>
    if c.isDigit then dotAfter cs
    else if c.isLower then
      match cs with
      | d :: r =>
        if d = '.' then
          match r with
          | e :: r2 => if e.isDigit then dotClose r2 else none
          | [] => none
        else none
      | [] => none
    else none

/-- Matcher for `BRACKET_WITH_DOT_RE = \[\d+[a-z]\.\d+\]` anchored at the head. -/
def matchDot : Line → Option Line
  | a :: b :: cs => if a = '[' then (if b.isDigit then dotAfter (b :: cs) else none) else none
  | _ => none

/-- Matcher for the final `\d*\}` part of `SECTION_DASH_TOKEN_RE`. -/
def dashClose : Line → Option Line
  | [] => none
  | c :: cs => if c.isDigit then dashClose cs else if c = '}' then some cs else none

/-- Matcher for the tail of `SECTION_DASH_TOKEN_RE` after `{D` and one digit:
digits, `-`, at least one digit, `}`. -/
def dashAfter : Line → Option Line
  | [] => none
  | c :: cs =>
    if c.isDigit then dashAfter cs
    else if c = '-' then
      match cs with
      | d :: r => if d.isDigit then dashClose r else none
      | [] => none
    else none

/-- Matcher for `SECTION_DASH_TOKEN_RE = \{D\d+-\d+\}` anchored at the head. -/
def matchDash : Line → Option Line
  | a :: b :: c :: cs =>
    if a = '{' then (if b = 'D' then (if c.isDigit then dashAfter (c :: cs) else none) else none)
    else none
  | _ => none

/-- Matcher for the tail of `SECTION_TOKEN_RE` after `{D` and one digit:
accumulates the digit group, optionally one lowercase letter, then `}`.
Returns the captured digits-plus-letter and the remainder. -/
def secAfter (acc : Line) : Line → Option (Line × Line)
  | [] => none
  | c :: cs =>
    if c.isDigit then secAfter (acc ++ [c]) cs
    else if c.isLower then
      match cs with
      | d :: r => if d = '}' then some (acc ++ [c], r) else none
      | [] => none
    else if c = '}' then some (acc, cs)
    else none

/-- Matcher for `SECTION_TOKEN_RE = \{D(\d+)([a-z])?\}` anchored at the head;
returns the captured groups (digits and optional letter, concatenated) and
the remainder. -/
def matchSection : Line → Option (Line × Line)
  | a :: b :: c :: cs =>
    if a = '{' then (if b = 'D' then (if c.isDigit then secAfter [c] cs else none) else none)
    else none
  | _ => none

/-- Matcher for `TEXT_VARIANT_RE = \{([^,}]+),([^}]+)\}` anchored at the head;
returns group 2 (the replacement) and the remainder. -/
def matchVariant : Line → Option (Line × Line)
  | [] => none
  | c :: cs =>
    if c = '{' then
      let a := cs.takeWhile fun x => !(x == ',' || x == '}')
      let r1 := cs.dropWhile fun x => !(x == ',' || x == '}')
      if a.isEmpty then none
      else
        match r1 with
        | x :: r2 =>
          if x = ',' then
            let b := r2.takeWhile fun y => !(y == '}')
            let r3 := r2.dropWhile fun y => !(y == '}')
            if b.isEmpty then none
            else
              match r3 with
              | y :: r4 => if y = '}' then some (b, r4) else none
              | [] => none
          else none
        | [] => none
    else none

/-- Python `re.search`: try the anchored matcher at every position, left to
right, returning the first success. -/
def searchP {α : Type} (m : Line → Option α) : Line → Option α
  | [] => none
  | c :: cs =>
    match m (c :: cs) with
    | some a => some a
    | none => searchP m cs

/-- Python `re.sub` with a replacement that does not depend on a counter:
`m` returns the replacement text and the rest after the match.  The fuel is
instantiated with the string length at every call site, which suffices since
every match consumes at least one character. -/
def subF (m : Line → Option (Line × Line)) : Nat → Line → Line
  | 0, s => s
  | _ + 1, [] => []
  | f + 1, c :: cs =>
    match m (c :: cs) with
    | some (rep, rest) => rep ++ subF m f rest
    | none => c :: subF m f cs

/-- Wrapper turning `matchDot` into a deleting substitution matcher. -/
def mDot (s : Line) : Option (Line × Line) := (matchDot s).map fun r => ([], r)

/-- Wrapper turning `matchDash` into a deleting substitution matcher. -/
def mDash (s : Line) : Option (Line × Line) := (matchDash s).map fun r => ([], r)

/-- Wrapper turning `matchSection` into a deleting substitution matcher. -/
def mSec (s : Line) : Option (Line × Line) := (matchSection s).map fun r => ([], r.2)

/-- Wrapper turning `matchPage` into a deleting substitution matcher (used by
`is_meaningful_line`). -/
def mPage0 (s : Line) : Option (Line × Line) := (matchPage s).map fun r => ([], r)

/-- Decimal digit character, mirroring Python `str` of a nonnegative `int`. -/
def digitChar (m : Nat) : Char :=
  if m = 0 then '0' else if m = 1 then '1' else if m = 2 then '2' else if m = 3 then '3'
  else if m = 4 then '4' else if m = 5 then '5' else if m = 6 then '6' else if m = 7 then '7'
  else if m = 8 then '8' else '9'

/-- Fuelled decimal rendering of a natural number. -/
def natCharsF : Nat → Nat → Line
  | 0, _ => []
  | f + 1, n => if n < 10 then [digitChar n] else natCharsF f (n / 10) ++ [digitChar (n % 10)]

/-- Decimal rendering of a natural number, as Python `str` does. -/
def natChars (n : Nat) : Line := natCharsF (n + 1) n

/-- The replacement text `f"Page: {n}"` used by `replace_page_markers`. -/
def pageLabel (n : Nat) : Line := "Page: ".toList ++ natChars n

/-- Python `BRACKET_PAGE_RE.sub(repl, ...)` with a counter-threading
replacement: each match is replaced by `g counter` and the counter is
incremented, mirroring the closure in `replace_page_markers`. -/
def pageScanF (g : Nat → Line) : Nat → Line → Nat → Line × Nat
  | 0, s, n => (s, n)
  | _ + 1, [], n => ([], n)
  | f + 1, c :: cs, n =>
    match matchPage (c :: cs) with
    | some rest =>
      let p := pageScanF g f rest (n + 1)
      (g n ++ p.1, p.2)
    | none =>
      let p := pageScanF g f cs n
      (c :: p.1, p.2)

/-- Count of leftmost non-overlapping `BRACKET_PAGE_RE` matches. -/
def pageCountF : Nat → Line → Nat
  | 0, _ => 0
  | _ + 1, [] => 0
  | f + 1, c :: cs =>
    match matchPage (c :: cs) with
    | some rest => 1 + pageCountF f rest
    | none => pageCountF f cs

/-- Count of bare page markers substituted in one line. -/
def pageCount (s : Line) : Nat := pageCountF s.length s

/-- Source `replace_page_markers`: replaces each bare page marker with
`Page: N`, threading the page counter, and returns the new line and counter. -/
def replace_page_markers (s : Line) (n : Nat) : Line × Nat :=
  pageScanF pageLabel s.length s n

/-- Source `BRACKET_PAGE_RE.sub("Page: 1", line)` used when a pending
page-marker line is re-rendered at a section boundary. -/
def pageSubOne (s : Line) : Line := (pageScanF (fun _ => pageLabel 1) s.length s 1).1

/-- Result of `process_line`: cleaned text, optional section token, and the
page-marker flag. -/
structure PLine where
  text : Line
  tok : Option Line
  hasPM : Bool
deriving DecidableEq

/-- Source `process_line`: collapse text variants, delete dotted markers,
delete dash tokens, extract (and delete) the section token, then flag bare
page markers. -/
def process_line (l : Line) : PLine :=
  let l1 := subF matchVariant l.length l
  let l2 := subF mDot l1.length l1
  let l3 := subF mDash l2.length l2
  match searchP matchSection l3 with
  | some p =>
    let l4 := subF mSec l3.length l3
    { text := l4, tok := some ('D' :: p.1), hasPM := (searchP matchPage l4).isSome }
  | none => { text := l3, tok := none, hasPM := (searchP matchPage l3).isSome }

/-- Python whitespace stripped by `str.strip()` (ASCII part). -/
def pyWs (c : Char) : Bool :=
  c == ' ' || c == '\t' || c == '\n' || c == '\r' || c == '\x0b' || c == '\x0c'

/-- Python `str.strip()`. -/
def pyStrip (l : Line) : Line := ((l.dropWhile pyWs).reverse.dropWhile pyWs).reverse

/-- Source `is_meaningful_line`: delete bare page markers, strip, delete
dotted markers, strip, and test for remaining content. -/
def is_meaningful_line (l : Line) : Bool :=
  let c1 := pyStrip (subF mPage0 l.length l)
  let c2 := pyStrip (subF mDot c1.length c1)
  !c2.isEmpty

/-- Source `count_meaningful_lines_before_section`: counts meaningful lines
before the first raw line containing a section token; the index of that line
is `none` when no line matches (`-1` in the source). -/
def count_meaningful_lines_before_section : List Line → Nat × Option Nat
  | [] => (0, none)
  | l :: ls =>
    if (searchP matchSection l).isSome then (0, some 0)
    else
      let p := count_meaningful_lines_before_section ls
      (p.1 + (if is_meaningful_line l then 1 else 0), p.2.map (· + 1))

/-- Section identifier: the engine starts in `UNKNOWN`, writes the heuristic
lead-in under `BASE`, and otherwise uses the token captured from the line. -/
inductive Sec where
  | unknown : Sec
  | base : Sec
  | tok : Line → Sec
deriving DecidableEq

/-- Backward search of `process_file` (the `for i in range(len(...)-1,-1,-1)`
loop): find the last buffer line still containing a bare page marker and
remove it, returning the remaining buffer and the removed line. -/
def popLastPM : List Line → Option (List Line × Line)
  | [] => none
  | l :: ls =>
    match popLastPM ls with
    | some p => some (l :: p.1, p.2)
    | none => if (searchP matchPage l).isSome then some (ls, l) else none

/-- Combined guard and backward search at a boundary: runs only when a last
page-marker line is pending and the buffer is nonempty; when the search finds
nothing the pending line is left as it was. -/
def boundaryPop (cur : List Line) (lpm : Option Line) : List Line × Option Line :=
  match lpm with
  | none => (cur, none)
  | some r =>
    if cur.isEmpty then (cur, some r)
    else
      match popLastPM cur with
      | some p => (p.1, some p.2)
      | none => (cur, some r)

/-- Opening of a fresh buffer after a flush: page counter 1, or the pending
line re-rendered as `Page: 1` pushed first with counter 2. -/
def injectNew (lpm : Option Line) : List Line × Nat × Option Line :=
  match lpm with
  | some r => ([pageSubOne r], 2, none)
  | none => ([], 1, none)

/-- Mutable state of the scan in `process_file`. -/
structure SplitState where
  outputs : List (Sec × List Line)
  cur : List Line
  sec : Sec
  pc : Nat
  lpm : Option Line
  sc : Nat

/-- Section-token handling of one iteration of `process_file` (the
`if section_token:` block). -/
def sectionPhase (shouldSplit : Bool) (st : SplitState) : Option Line → SplitState
  | none => st
  | some t =>
    if st.sc = 0 then
      if shouldSplit then
        let bp := boundaryPop st.cur st.lpm
        let inj := injectNew bp.2
        { outputs := st.outputs ++ [(Sec.base, bp.1)], cur := inj.1,
          sec := Sec.tok t, pc := inj.2.1, lpm := inj.2.2, sc := st.sc + 1 }
      else
        { st with sec := Sec.tok t, sc := st.sc + 1 }
    else
      let bp := boundaryPop st.cur st.lpm
      let inj := injectNew bp.2
      { outputs := st.outputs ++ [(st.sec, bp.1)], cur := inj.1,
        sec := Sec.tok t, pc := inj.2.1, lpm := inj.2.2, sc := 1 }

/-- Page-marker handling and append of one iteration of `process_file`: the
substitution is unconditional, only the recording of the raw line for
relocation is gated on `section_counter > 0`. -/
def appendPhase (st : SplitState) (pl : PLine) (line : Line) : SplitState :=
  let sub := if pl.hasPM then replace_page_markers pl.text st.pc else (pl.text, st.pc)
  { st with
    cur := st.cur ++ [sub.1],
    pc := sub.2,
    lpm := if pl.hasPM then (if st.sc = 0 then st.lpm else some line) else st.lpm }

/-- One iteration of the scan in `process_file`: section handling, then
unconditional page-marker substitution, recording of the raw line for
relocation only when a section is open, and the append. -/
def step (shouldSplit : Bool) (st : SplitState) (line : Line) : SplitState :=
  appendPhase (sectionPhase shouldSplit st (process_line line).tok) (process_line line) line

/-- Initial engine state of `process_file`. -/
def initState : SplitState :=
  { outputs := [], cur := [], sec := Sec.unknown, pc := 1, lpm := none, sc := 0 }

/-- The pre-scan decision `should_split_before_first` of `process_file`. -/
def shouldSplitOf (threshold : Nat) (lines : List Line) : Bool :=
  let p := count_meaningful_lines_before_section lines
  decide (threshold ≤ p.1) &&
    match p.2 with
    | some i => decide (0 < i)
    | none => false

/-- Source `process_file` on the list of lines of one document: the emitted
section buffers in order (file writing is modelled by recording the section
id together with the flushed lines). -/
def process_file (threshold : Nat) (lines : List Line) : List (Sec × List Line) :=
  let ss := shouldSplitOf threshold lines
  let fin := lines.foldl (step ss) initState
  fin.outputs ++ (if fin.cur.isEmpty then [] else [(fin.sec, fin.cur)])

/-- Naming policy of `write_section_file`: `UNKNOWN` and `BASE` reuse the
input stem; any other section id is appended to it. -/
def section_file_name (stem : Line) : Sec → Line
  | Sec.unknown => stem ++ ".txt".toList
  | Sec.base => stem ++ ".txt".toList
  | Sec.tok t => stem ++ "_".toList ++ t ++ ".txt".toList

/-- The output files of `process_file` with the names produced by
`write_section_file`. -/
def process_file_named (stem : Line) (threshold : Nat) (lines : List Line) :
    List (Line × List Line) :=
  (process_file threshold lines).map fun p => (section_file_name stem p.1, p.2)

/-- Source `process_all_files`: each input file is either readable (its list
of lines) or fails with an IO error (`Except.error ()`).  The Python loop has
no exception handling, so the first failure propagates and aborts the batch;
on success the per-file output counts are returned. -/
def process_all_files (threshold : Nat) (files : List (Except Unit (List Line))) :
    Except Unit (List Nat) :=
  files.mapM fun f => f.map fun doc => (process_file threshold doc).length

/-- State of the linear emission machine: like `SplitState` but with a single
flat list of emitted lines instead of per-section buffers, and without the
backward-search removal. -/
structure EmitState where
  emitted : List Line
  pc : Nat
  lpm : Option Line
  sc : Nat

/-- Boundary handling of the linear emission machine: at a boundary the
pending line is emitted as its `Page: 1` rendition and nothing is ever
removed. -/
def esecPhase (shouldSplit : Bool) (st : EmitState) : Option Line → EmitState
  | none => st
  | some _ =>
    if st.sc = 0 then
      if shouldSplit then
        match st.lpm with
        | some r =>
          { emitted := st.emitted ++ [pageSubOne r], pc := 2, lpm := none, sc := st.sc + 1 }
        | none => { st with pc := 1, sc := st.sc + 1 }
      else
        { st with sc := st.sc + 1 }
    else
      match st.lpm with
      | some r => { emitted := st.emitted ++ [pageSubOne r], pc := 2, lpm := none, sc := 1 }
      | none => { st with pc := 1, sc := 1 }

/-- Substitution and append of the linear emission machine. -/
def eappendPhase (st : EmitState) (pl : PLine) (line : Line) : EmitState :=
  let sub := if pl.hasPM then replace_page_markers pl.text st.pc else (pl.text, st.pc)
  { st with
    emitted := st.emitted ++ [sub.1],
    pc := sub.2,
    lpm := if pl.hasPM then (if st.sc = 0 then st.lpm else some line) else st.lpm }

/-- One iteration of the linear emission machine. -/
def estep (shouldSplit : Bool) (st : EmitState) (line : Line) : EmitState :=
  eappendPhase (esecPhase shouldSplit st (process_line line).tok) (process_line line) line

/-- The flat sequence of lines emitted for one document, in order. -/
def emittedLines (threshold : Nat) (lines : List Line) : List Line :=
  let ss := shouldSplitOf threshold lines
  (lines.foldl (estep ss) { emitted := [], pc := 1, lpm := none, sc := 0 }).emitted

/-- One step of the plain line pipeline: process the line, substitute page
markers with the running counter, and append. -/
def pstep (acc : List Line × Nat) (l : Line) : List Line × Nat :=
  let pl := process_line l
  if pl.hasPM then
    let sub := replace_page_markers pl.text acc.2
    (acc.1 ++ [sub.1], sub.2)
  else (acc.1 ++ [pl.text], acc.2)

/-- The processed, page-substituted lines of a document in which no section
token ever fires: a single pass with one global page counter. -/
def processedSeq (lines : List Line) : List Line := (lines.foldl pstep ([], 1)).1

/-! Basic facts about the scanners. -/

theorem searchP_cons_none {α : Type} {m : Line → Option α} {c : Char} {cs : Line} :
    searchP m (c :: cs) = none ↔ m (c :: cs) = none ∧ searchP m cs = none := by
  simp only [searchP]
  cases h : m (c :: cs) <;> simp [h]

theorem subF_no_match {m : Line → Option (Line × Line)} :
    ∀ (f : Nat) (s : Line), searchP m s = none → subF m f s = s := by
  intro f
  induction f with
  | zero => intro s _; rfl
  | succ f ih =>
    intro s h
    cases s with
    | nil => rfl
    | cons c cs =>
      rw [searchP_cons_none] at h
      simp [subF, h.1, ih cs h.2]

theorem searchP_none_append_right {α : Type} {m : Line → Option α} :
    ∀ (p : Line) {t : Line}, searchP m (p ++ t) = none → searchP m t = none := by
  intro p
  induction p with
  | nil => intro t h; exact h
  | cons c p ih =>
    intro t h
    rw [List.cons_append, searchP_cons_none] at h
    exact ih h.2

theorem searchP_suffix_none {α : Type} {m : Line → Option α} {s t : Line}
    (h : searchP m s = none) (hs : t <:+ s) : searchP m t = none := by
  obtain ⟨p, rfl⟩ := hs
  exact searchP_none_append_right p h

theorem matchPage_none_of_head {c : Char} (h : c ≠ '[') (l : Line) :
    matchPage (c :: l) = none := by
  cases l with
  | nil => rfl
  | cons b cs => simp [matchPage, h]

theorem matchDot_none_of_head {c : Char} (h : c ≠ '[') (l : Line) :
    matchDot (c :: l) = none := by
  cases l with
  | nil => rfl
  | cons b cs => simp [matchDot, h]

theorem searchP_append_nb {α : Type} {m : Line → Option α}
    (hm : ∀ (c : Char) (l : Line), c ≠ '[' → m (c :: l) = none)
    {a : Line} (ha : ∀ c ∈ a, c ≠ '[') (b : Line) :
    searchP m (a ++ b) = searchP m b := by
  induction a with
  | nil => rfl
  | cons c a ih =>
    rw [List.cons_append]
    simp only [searchP]
    rw [hm c _ (ha c (List.mem_cons_self c a))]
    exact ih fun x hx => ha x (List.mem_cons_of_mem c hx)

theorem matchPage_some_shape {s r : Line} (h : matchPage s = some r) :
    ∃ b cs, s = '[' :: b :: cs ∧ b.isDigit = true ∧ pageAfter (b :: cs) = some r := by
  match s with
  | [] => simp [matchPage] at h
  | [a] => simp [matchPage] at h
  | a :: b :: cs =>
    by_cases ha : a = '['
    · subst ha
      by_cases hb : b.isDigit
      · simp only [matchPage, if_pos rfl, if_pos hb] at h
        exact ⟨b, cs, rfl, hb, h⟩
      · simp [matchPage, hb] at h
    · simp [matchPage, ha] at h

theorem pageAfter_suffix : ∀ {s r : Line}, pageAfter s = some r → r <:+ s := by
  intro s
  induction s with
  | nil => intro r h; simp [pageAfter] at h
  | cons c cs ih =>
    intro r h
    simp only [pageAfter] at h
    split at h
    · exact (ih h).trans (List.suffix_cons c cs)
    · split at h
      · cases cs with
        | nil => simp at h
        | cons d rr =>
          simp only at h
          split at h
          · rw [Option.some_inj] at h
            subst h
            exact (List.suffix_cons d rr).trans (List.suffix_cons c (d :: rr))
          · simp at h
      · simp at h

theorem matchPage_suffix {s r : Line} (h : matchPage s = some r) :
    r <:+ s ∧ r.length < s.length := by
  obtain ⟨b, cs, rfl, _, hp⟩ := matchPage_some_shape h
  have h1 : r <:+ b :: cs := pageAfter_suffix hp
  refine ⟨h1.trans (List.suffix_cons '[' (b :: cs)), ?_⟩
  have h2 := h1.length_le
  simp only [List.length_cons] at h2 ⊢
  omega

/-! Properties of the replacement label. -/

theorem digitChar_isDigit (m : Nat) : (digitChar m).isDigit = true := by
  unfold digitChar
  repeat' split
  all_goals decide

theorem natCharsF_digits : ∀ (f n : Nat), ∀ c ∈ natCharsF f n, c.isDigit = true := by
  intro f
  induction f with
  | zero => intro n c h; simp [natCharsF] at h
  | succ f ih =>
    intro n c h
    unfold natCharsF at h
    split at h
    · simp only [List.mem_singleton] at h
      subst h
      exact digitChar_isDigit _
    · rcases List.mem_append.mp h with h | h
      · exact ih _ c h
      · simp only [List.mem_singleton] at h
        subst h
        exact digitChar_isDigit _

theorem pageLabel_head (n : Nat) : (pageLabel n).head? = some 'P' := rfl

theorem pageLabel_nb (n : Nat) : ∀ c ∈ pageLabel n, c ≠ '[' := by
  intro c hc
  rcases List.mem_append.mp hc with h | h
  · exact (by decide : ∀ c ∈ "Page: ".toList, c ≠ '[') c h
  · have hd := natCharsF_digits _ _ c h
    intro e
    subst e
    exact absurd hd (by decide)

/-! The scan relation: `PR s t` says that `t` is obtained from `s` by the
leftmost non-overlapping `BRACKET_PAGE_RE` scan, each match replaced by some
label that starts with `P` and contains no `[`.  Every output of `pageScanF`
is related to its input by `PR`. -/

inductive PR : Line → Line → Prop where
  | nil : PR [] []
  | keep {c : Char} {cs t : Line} : matchPage (c :: cs) = none → PR cs t → PR (c :: cs) (c :: t)
  | subst {c : Char} {cs rest lab t : Line} :
      matchPage (c :: cs) = some rest → lab.head? = some 'P' → (∀ x ∈ lab, x ≠ '[') →
      PR rest t → PR (c :: cs) (lab ++ t)

theorem PR_nil_right {y : Line} (h : PR [] y) : y = [] := by
  cases h
  rfl

theorem PR_head {x y : Line} (h : PR x y) : y.head? = x.head? ∨ y.head? = some 'P' := by
  cases h with
  | nil => exact Or.inl rfl
  | keep _ _ => exact Or.inl rfl
  | @subst c cs rest lab t hm hh hnb hpr =>
    right
    cases lab with
    | nil => simp at hh
    | cons p ps => simpa using hh

theorem PR_of_scan {g : Nat → Line}
    (hg : ∀ k, (g k).head? = some 'P' ∧ ∀ x ∈ g k, x ≠ '[') :
    ∀ (f : Nat) (s : Line) (n : Nat), s.length ≤ f → PR s (pageScanF g f s n).1 := by
  intro f
  induction f with
  | zero =>
    intro s n h
    have : s = [] := List.eq_nil_of_length_eq_zero (Nat.le_zero.mp h)
    subst this
    exact PR.nil
  | succ f ih =>
    intro s n h
    cases s with
    | nil => exact PR.nil
    | cons c cs =>
      cases hm : matchPage (c :: cs) with
      | none =>
        simp only [pageScanF, hm]
        exact PR.keep hm (ih cs n (by simp only [List.length_cons] at h; omega))
      | some rest =>
        simp only [pageScanF, hm]
        refine PR.subst hm (hg n).1 (hg n).2 (ih rest (n + 1) ?_)
        have := (matchPage_suffix hm).2
        simp only [List.length_cons] at h this
        omega

theorem pageAfter_PR {x y : Line} (hpr : PR x y) : pageAfter x = none → pageAfter y = none := by
  induction hpr with
  | nil => intro h; exact h
  | @keep c cs t hm hpr2 ih =>
    intro hx
    by_cases hd : c.isDigit
    · have h1 : pageAfter cs = none := by simpa [pageAfter, hd] using hx
      simpa [pageAfter, hd] using ih h1
    · by_cases hl : c.isLower
      · simp only [pageAfter, hd, hl, Bool.false_eq_true, if_false, if_true] at hx ⊢
        cases cs with
        | nil =>
          have ht := PR_nil_right hpr2
          subst ht
          simp
        | cons d r =>
          have hd2 : d ≠ ']' := by
            intro e
            subst e
            simp at hx
          cases t with
          | nil => simp
          | cons e t2 =>
            rcases PR_head hpr2 with hh | hh
            · simp only [List.head?_cons, Option.some_inj] at hh
              subst hh
              simp [hd2]
            · simp only [List.head?_cons, Option.some_inj] at hh
              subst hh
              simp [(by decide : ('P' : Char) ≠ ']')]
      · simp [pageAfter, hd, hl]
  | @subst c cs rest lab t hm hh hnb hpr2 ih =>
    intro _
    cases lab with
    | nil => simp at hh
    | cons p ps =>
      have hp : p = 'P' := by simpa using hh
      subst hp
      simp [pageAfter, (by decide : ('P' : Char).isDigit = false),
        (by decide : ('P' : Char).isLower = false)]

theorem matchPage_none_PR {c : Char} {x y : Line} (hm : matchPage (c :: x) = none)
    (hpr : PR x y) : matchPage (c :: y) = none := by
  by_cases hc : c = '['
  · subst hc
    cases hpr with
    | nil => rfl
    | @keep d ds t hm2 hpr2 =>
      by_cases hd : d.isDigit
      · have h0 : pageAfter (d :: ds) = none := by simpa [matchPage, hd] using hm
        have h1 : pageAfter ds = none := by simpa [pageAfter, hd] using h0
        have h2 := pageAfter_PR hpr2 h1
        simp [matchPage, hd, pageAfter, h2]
      · simp [matchPage, hd]
    | @subst d ds rest lab t hm2 hh hnb hpr2 =>
      cases lab with
      | nil => simp at hh
      | cons p ps =>
        have hp : p = 'P' := by simpa using hh
        subst hp
        simp [matchPage, (by decide : ('P' : Char).isDigit = false)]
  · exact matchPage_none_of_head hc y

theorem PR_no_page {x y : Line} (h : PR x y) : searchP matchPage y = none := by
  induction h with
  | nil => rfl
  | @keep c cs t hm hpr ih =>
    rw [searchP_cons_none]
    exact ⟨matchPage_none_PR hm hpr, ih⟩
  | @subst c cs rest lab t hm hh hnb hpr ih =>
    rw [searchP_append_nb (fun a l ha => matchPage_none_of_head ha l) hnb]
    exact ih

theorem pageLabel_good : ∀ k, (pageLabel k).head? = some 'P' ∧ ∀ x ∈ pageLabel k, x ≠ '[' :=
  fun k => ⟨pageLabel_head k, pageLabel_nb k⟩

/-- Lines produced by `replace_page_markers` never retain (or splice
together) a bare page marker. -/
theorem replace_no_page (s : Line) (n : Nat) :
    searchP matchPage (replace_page_markers s n).1 = none :=
  PR_no_page (PR_of_scan pageLabel_good s.length s n le_rfl)

/-- Lines produced by the boundary re-rendering never contain a bare page
marker. -/
theorem pageSubOne_no_page (s : Line) :
    searchP matchPage (pageSubOne s) = none :=
  PR_no_page (PR_of_scan (fun _ => pageLabel_good 1) s.length s 1 le_rfl)

theorem dotClose_PR {x y : Line} (hpr : PR x y) : dotClose x = none → dotClose y = none := by
  induction hpr with
  | nil => intro h; exact h
  | @keep c cs t hm hpr2 ih =>
    intro hx
    by_cases hd : c.isDigit
    · have h1 : dotClose cs = none := by simpa [dotClose, hd] using hx
      simpa [dotClose, hd] using ih h1
    · by_cases hb : c = ']'
      · subst hb
        simp [dotClose, hd] at hx
      · simp [dotClose, hd, hb]
  | @subst c cs rest lab t hm hh hnb hpr2 ih =>
    intro _
    cases lab with
    | nil => simp at hh
    | cons p ps =>
      have hp : p = 'P' := by simpa using hh
      subst hp
      simp [dotClose, (by decide : ('P' : Char).isDigit = false),
        (by decide : ('P' : Char) ≠ ']')]

theorem dotAfter_PR {x y : Line} (hpr : PR x y) : dotAfter x = none → dotAfter y = none := by
  induction hpr with
  | nil => intro h; exact h
  | @keep c cs t hm hpr2 ih =>
    intro hx
    by_cases hd : c.isDigit
    · have h1 : dotAfter cs = none := by simpa [dotAfter, hd] using hx
      simpa [dotAfter, hd] using ih h1
    · by_cases hl : c.isLower
      · simp only [dotAfter, hd, hl, Bool.false_eq_true, if_false, if_true] at hx ⊢
        cases cs with
        | nil =>
          have ht := PR_nil_right hpr2
          subst ht
          simp
        | cons d r =>
          cases hpr2 with
          | @keep _ _ t2 hm2 hpr3 =>
            by_cases hdot : d = '.'
            · subst hdot
              simp only [if_pos rfl] at hx ⊢
              cases r with
              | nil =>
                have ht := PR_nil_right hpr3
                subst ht
                simp
              | cons e r2 =>
                cases hpr3 with
                | @keep _ _ t3 hm3 hpr4 =>
                  by_cases he : e.isDigit
                  · have h1 : dotClose r2 = none := by simpa [he] using hx
                    simpa [he] using dotClose_PR hpr4 h1
                  · simp [he]
                | @subst _ _ rest2 lab2 t3 hm3 hh3 hnb3 hpr4 =>
                  cases lab2 with
                  | nil => simp at hh3
                  | cons p ps =>
                    have hp : p = 'P' := by simpa using hh3
                    subst hp
                    simp [(by decide : ('P' : Char).isDigit = false)]
            · simp [hdot]
          | @subst _ _ rest2 lab2 t2 hm2 hh2 hnb2 hpr3 =>
            cases lab2 with
            | nil => simp at hh2
            | cons p ps =>
              have hp : p = 'P' := by simpa using hh2
              subst hp
              simp [(by decide : ('P' : Char) ≠ '.')]
      · simp [dotAfter, hd, hl]
  | @subst c cs rest lab t hm hh hnb hpr2 ih =>
    intro _
    cases lab with
    | nil => simp at hh
    | cons p ps =>
      have hp : p = 'P' := by simpa using hh
      subst hp
      simp [dotAfter, (by decide : ('P' : Char).isDigit = false),
        (by decide : ('P' : Char).isLower = false)]

theorem matchDot_none_PR {c : Char} {x y : Line} (hm : matchDot (c :: x) = none)
    (hpr : PR x y) : matchDot (c :: y) = none := by
  by_cases hc : c = '['
  · subst hc
    cases hpr with
    | nil => rfl
    | @keep d ds t hm2 hpr2 =>
      by_cases hd : d.isDigit
      · have h0 : dotAfter (d :: ds) = none := by simpa [matchDot, hd] using hm
        have h1 : dotAfter ds = none := by simpa [dotAfter, hd] using h0
        have h2 := dotAfter_PR hpr2 h1
        simp [matchDot, hd, dotAfter, h2]
      · simp [matchDot, hd]
    | @subst d ds rest lab t hm2 hh hnb hpr2 =>
      cases lab with
      | nil => simp at hh
      | cons p ps =>
        have hp : p = 'P' := by simpa using hh
        subst hp
        simp [matchDot, (by decide : ('P' : Char).isDigit = false)]
  · exact matchDot_none_of_head hc y

theorem PR_no_dot {x y : Line} (hpr : PR x y) :
    searchP matchDot x = none → searchP matchDot y = none := by
  induction hpr with
  | nil => intro h; exact h
  | @keep c cs t hm hpr2 ih =>
    intro hx
    rw [searchP_cons_none] at hx
    rw [searchP_cons_none]
    exact ⟨matchDot_none_PR hx.1 hpr2, ih hx.2⟩
  | @subst c cs rest lab t hm hh hnb hpr2 ih =>
    intro hx
    rw [searchP_append_nb (fun a l ha => matchDot_none_of_head ha l) hnb]
    exact ih (searchP_suffix_none hx (matchPage_suffix hm).1)

/-- Page-marker substitution cannot splice together a dotted marker: a line
without dotted markers keeps that property. -/
theorem replace_no_dot {s : Line} (h : searchP matchDot s = none) (n : Nat) :
    searchP matchDot (replace_page_markers s n).1 = none :=
  PR_no_dot (PR_of_scan pageLabel_good s.length s n le_rfl) h

theorem pageScanF_snd (g : Nat → Line) :
    ∀ (f : Nat) (s : Line) (n : Nat), (pageScanF g f s n).2 = n + pageCountF f s := by
  intro f
  induction f with
  | zero => intro s n; simp [pageScanF, pageCountF]
  | succ f ih =>
    intro s n
    cases s with
    | nil => simp [pageScanF, pageCountF]
    | cons c cs =>
      cases hm : matchPage (c :: cs) with
      | none => simp [pageScanF, pageCountF, hm, ih]
      | some rest =>
        simp only [pageScanF, pageCountF, hm, ih]
        omega

/-! The backward search never finds a line in a marker-free buffer. -/

theorem popLastPM_none {ls : List Line} (h : ∀ l ∈ ls, searchP matchPage l = none) :
    popLastPM ls = none := by
  induction ls with
  | nil => rfl
  | cons l ls ih =>
    have h1 := h l (List.mem_cons_self l ls)
    have h2 := ih fun x hx => h x (List.mem_cons_of_mem l hx)
    simp [popLastPM, h2, h1]

theorem boundaryPop_id {cur : List Line} (lpm : Option Line)
    (h : ∀ l ∈ cur, searchP matchPage l = none) :
    boundaryPop cur lpm = (cur, lpm) := by
  cases lpm with
  | none => rfl
  | some r =>
    by_cases hc : cur.isEmpty
    · simp [boundaryPop, hc]
    · simp [boundaryPop, hc, popLastPM_none h]

/-- Simulation invariant between the real engine state and the linear
emission machine: the emitted sequence is the concatenation of the flushed
buffers followed by the open buffer, the counters agree, and every line of
the open buffer is free of bare page markers. -/
def Inv (st : SplitState) (e : EmitState) : Prop :=
  e.emitted = (st.outputs.map Prod.snd).flatten ++ st.cur ∧
  e.pc = st.pc ∧ e.lpm = st.lpm ∧ e.sc = st.sc ∧
  ∀ l ∈ st.cur, searchP matchPage l = none

theorem Inv_init : Inv initState { emitted := [], pc := 1, lpm := none, sc := 0 } :=
  ⟨rfl, rfl, rfl, rfl, by simp [initState]⟩

theorem Inv_sectionPhase {ss : Bool} {st : SplitState} {e : EmitState} (h : Inv st e)
    (tokOpt : Option Line) : Inv (sectionPhase ss st tokOpt) (esecPhase ss e tokOpt) := by
  obtain ⟨he, hpc, hlpm, hsc, hnp⟩ := h
  cases tokOpt with
  | none => exact ⟨he, hpc, hlpm, hsc, hnp⟩
  | some t =>
    simp only [sectionPhase, esecPhase, hsc, hlpm, boundaryPop_id st.lpm hnp]
    by_cases h0 : st.sc = 0
    · rw [if_pos h0, if_pos h0]
      by_cases hss : ss
      · rw [if_pos hss, if_pos hss]
        cases hl : st.lpm with
        | some r =>
          refine ⟨?_, rfl, rfl, rfl, ?_⟩
          · simp [he, injectNew, hl]
          · simp [injectNew]
            exact pageSubOne_no_page r
        | none =>
          refine ⟨?_, rfl, rfl, rfl, ?_⟩
          · simp [he, injectNew]
          · simp [injectNew]
      · rw [if_neg hss, if_neg hss]
        exact ⟨he, hpc, rfl, rfl, hnp⟩
    · rw [if_neg h0, if_neg h0]
      cases hl : st.lpm with
      | some r =>
        refine ⟨?_, rfl, rfl, rfl, ?_⟩
        · simp [he, injectNew, hl]
        · simp [injectNew]
          exact pageSubOne_no_page r
      | none =>
        refine ⟨?_, rfl, rfl, rfl, ?_⟩
        · simp [he, injectNew]
        · simp [injectNew]

theorem Inv_appendPhase {st : SplitState} {e : EmitState} (h : Inv st e) (pl : PLine)
    (line : Line) (hflag : pl.hasPM = (searchP matchPage pl.text).isSome) :
    Inv (appendPhase st pl line) (eappendPhase e pl line) := by
  obtain ⟨he, hpc, hlpm, hsc, hnp⟩ := h
  simp only [appendPhase, eappendPhase, hpc, hlpm, hsc]
  refine ⟨?_, rfl, rfl, rfl, ?_⟩
  · simp [he]
  · intro l hl
    rcases List.mem_append.mp hl with hl | hl
    · exact hnp l hl
    · simp only [List.mem_singleton] at hl
      subst hl
      cases hb : pl.hasPM with
      | true => simp only [hb, if_pos rfl]; exact replace_no_page pl.text st.pc
      | false =>
        rw [hb] at hflag
        simp only [hb, Bool.false_eq_true, if_false]
        exact Option.not_isSome_iff_eq_none.mp (by rw [← hflag]; simp)

theorem process_line_hasPM (l : Line) :
    (process_line l).hasPM = (searchP matchPage (process_line l).text).isSome := by
  unfold process_line
  dsimp only
  split <;> rfl

theorem Inv_step {ss : Bool} {st : SplitState} {e : EmitState} (h : Inv st e) (line : Line) :
    Inv (step ss st line) (estep ss e line) :=
  Inv_appendPhase (Inv_sectionPhase h (process_line line).tok) (process_line line) line
    (process_line_hasPM line)

theorem Inv_fold {ss : Bool} :
    ∀ (ls : List Line) {st : SplitState} {e : EmitState}, Inv st e →
      Inv (ls.foldl (step ss) st) (ls.foldl (estep ss) e) := by
  intro ls
  induction ls with
  | nil => intro st e h; exact h
  | cons l ls ih => intro st e h; exact ih (Inv_step h l)

/-! Helpers about the final flush. -/

theorem step_cur_ne_nil (ss : Bool) (st : SplitState) (l : Line) : (step ss st l).cur ≠ [] := by
  simp [step, appendPhase]

theorem foldl_cur_ne_nil (ss : Bool) :
    ∀ (ls : List Line) (st : SplitState), ls ≠ [] → (ls.foldl (step ss) st).cur ≠ [] := by
  intro ls
  induction ls with
  | nil => intro st h; exact absurd rfl h
  | cons l ls ih =>
    intro st _
    cases ls with
    | nil => exact step_cur_ne_nil ss st l
    | cons l2 ls2 => exact ih (step ss st l) (by simp)

/-! Claim theorems. -/

/-- C1, counterexample: a document consisting of the single line `[1a]`,
with no section ever opened, is written with the bare marker already
substituted as `Page: 1`, not left unsubstituted as the claim states. -/
theorem C1_counterexample :
    process_file 50 ["[1a]".toList] = [(Sec.unknown, ["Page: 1".toList])] ∧
    "Page: 1".toList ≠ "[1a]".toList := by
  exact ⟨by decide, by decide⟩

/-- C1, amended: on a line carrying a bare page marker that is processed
while no section has been opened (`section_counter = 0`, no section token on
the line), `process_file` nevertheless substitutes the markers via
`replace_page_markers` before appending the line; the `section_counter > 0`
condition gates only the recording of the raw line for relocation, which is
why `last_page_marker_line` stays unchanged here. -/
theorem C1_amended (ss : Bool) (st : SplitState) (line : Line)
    (h0 : st.sc = 0) (htok : (process_line line).tok = none)
    (hpm : (process_line line).hasPM = true) :
    (step ss st line).cur =
      st.cur ++ [(replace_page_markers (process_line line).text st.pc).1] ∧
    (step ss st line).pc = (replace_page_markers (process_line line).text st.pc).2 ∧
    (step ss st line).lpm = st.lpm ∧
    (step ss st line).outputs = st.outputs := by
  simp [step, htok, sectionPhase, appendPhase, hpm, h0]

/-- C1, witness for the amended theorem at the concrete line `[1a]` and the
initial state. -/
theorem C1_witness :
    (process_line "[1a]".toList).tok = none ∧
    (process_line "[1a]".toList).hasPM = true ∧
    (step false initState "[1a]".toList).cur =
      initState.cur ++ [(replace_page_markers (process_line "[1a]".toList).text initState.pc).1] := by
  refine ⟨by decide, by decide, ?_⟩
  exact (C1_amended false initState "[1a]".toList rfl (by decide) (by decide)).1

/-- C2, counterexample: for the document `{D1} / [1a]x / {D2} / y` the
concatenation of the output buffers contains the line `Page: 1x` twice — the
substituted form stays in the flushed `D1` buffer and a second `Page: 1`
rendition of the recorded raw line is injected into the `D2` buffer — so not
every processed line appears exactly once. -/
theorem C2_counterexample :
    ((process_file 50 ["{D1}".toList, "[1a]x".toList, "{D2}".toList, "y".toList]).map
        Prod.snd).flatten =
      ["".toList, "Page: 1x".toList, "Page: 1x".toList, "".toList, "y".toList] ∧
    List.count "Page: 1x".toList
      (((process_file 50 ["{D1}".toList, "[1a]x".toList, "{D2}".toList, "y".toList]).map
          Prod.snd).flatten) = 2 := by
  exact ⟨by decide, by decide⟩

/-- C2, amended: concatenating the output buffers of `process_file` in
emission order yields exactly the linear emission sequence: every
post-substitution processed line once, in input order, plus one additional
`Page: 1` rendition of the recorded raw marker line injected at each
boundary at which such a line is pending.  Nothing is ever removed from a
flushed buffer, because buffer lines are post-substitution and never retain
a bare marker, so the backward search of the relocation rule never finds a
line: the relocated content is duplicated, not moved. -/
theorem C2_amended (t : Nat) (doc : List Line) :
    ((process_file t doc).map Prod.snd).flatten = emittedLines t doc := by
  unfold process_file emittedLines
  obtain ⟨he, _, _, _, _⟩ :=
    @Inv_fold (shouldSplitOf t doc) doc _ _ Inv_init
  by_cases hc : (doc.foldl (step (shouldSplitOf t doc)) initState).cur.isEmpty
  · have hnil : (doc.foldl (step (shouldSplitOf t doc)) initState).cur = [] := by
      simpa [List.isEmpty_iff] using hc
    rw [he, hnil]
    simp [hc]
  · rw [he]
    simp [hc]

/-- C3, counterexample: in `{D1} / [1a]x / {D2} / y` the `D1` buffer flushed
at the `{D2}` boundary is `["", "Page: 1x"]`, in which the backward search
finds no line with a bare marker (`popLastPM` returns `none`) — yet a
`Page: 1` line is still pushed as the head of the new `D2` buffer, contrary
to the claim that no relocation occurs in that case. -/
theorem C3_counterexample :
    popLastPM ["".toList, "Page: 1x".toList] = none ∧
    process_file 50 ["{D1}".toList, "[1a]x".toList, "{D2}".toList, "y".toList] =
      [(Sec.tok "D1".toList, ["".toList, "Page: 1x".toList]),
       (Sec.tok "D2".toList, ["Page: 1x".toList, "".toList, "y".toList])] := by
  exact ⟨by decide, by decide⟩

/-- C3, amended: at a section boundary with a pending last page-marker line,
the backward search (which never finds a qualifying line when the buffer
holds only post-substitution lines) removes nothing — the full buffer is
flushed — and the pending raw line, re-rendered with every bare marker
replaced by `Page: 1`, is still pushed as the sole line of the new buffer
with the page counter set to 2. -/
theorem C3_amended (ss : Bool) (st : SplitState) (r t : Line)
    (hsc : st.sc ≠ 0) (hlpm : st.lpm = some r)
    (hnp : ∀ x ∈ st.cur, searchP matchPage x = none) :
    (sectionPhase ss st (some t)).outputs = st.outputs ++ [(st.sec, st.cur)] ∧
    (sectionPhase ss st (some t)).cur = [pageSubOne r] ∧
    (sectionPhase ss st (some t)).pc = 2 ∧
    (sectionPhase ss st (some t)).lpm = none := by
  simp [sectionPhase, if_neg hsc, hlpm, boundaryPop_id (some r) hnp, injectNew]

/-- C3, witness for the amended theorem at a concrete boundary state. -/
theorem C3_witness :
    (sectionPhase false
        { outputs := [], cur := ["Page: 1x".toList], sec := Sec.tok "D1".toList, pc := 2,
          lpm := some "[1a]x".toList, sc := 1 } (some "D2".toList)).cur =
      [pageSubOne "[1a]x".toList] ∧
    (sectionPhase false
        { outputs := [], cur := ["Page: 1x".toList], sec := Sec.tok "D1".toList, pc := 2,
          lpm := some "[1a]x".toList, sc := 1 } (some "D2".toList)).pc = 2 := by
  have h := C3_amended false
    { outputs := [], cur := ["Page: 1x".toList], sec := Sec.tok "D1".toList, pc := 2,
      lpm := some "[1a]x".toList, sc := 1 } "[1a]x".toList "D2".toList
    (by decide) rfl (by decide)
  exact ⟨h.2.1, h.2.2.1⟩

/-- C4, counterexample: in `{D1} / [1a][1b]x / {D2} / [2a]y` the `D2` buffer
is `["Page: 1Page: 1x", "", "Page: 2y"]`: the injected first line carries the
label `Page: 1` twice (every marker of the recorded raw line is replaced by
the constant `Page: 1`), so the emitted labels 1, 1, 2 are not strictly
sequential within that buffer. -/
theorem C4_counterexample :
    process_file 50 ["{D1}".toList, "[1a][1b]x".toList, "{D2}".toList, "[2a]y".toList] =
      [(Sec.tok "D1".toList, ["".toList, "Page: 1Page: 2x".toList]),
       (Sec.tok "D2".toList,
        ["Page: 1Page: 1x".toList, "".toList, "Page: 2y".toList])] := by
  decide

/-- C4, amended: `replace_page_markers` increments the counter by exactly one
per substituted occurrence (the returned counter is the incoming counter plus
the number of bare-marker matches), and at every boundary the new buffer's
counter is 1, or 2 exactly when a pending marker line is injected; labels are
strictly sequential within a buffer except on the injected line, whose
markers all read `Page: 1`. -/
theorem C4_amended (s : Line) (n : Nat) (ss : Bool) (st : SplitState) (t : Line)
    (hsc : st.sc ≠ 0) (hnp : ∀ x ∈ st.cur, searchP matchPage x = none) :
    (replace_page_markers s n).2 = n + pageCount s ∧
    (sectionPhase ss st (some t)).pc = (match st.lpm with | none => 1 | some _ => 2) := by
  constructor
  · exact pageScanF_snd pageLabel s.length s n
  · simp only [sectionPhase, hsc, if_neg hsc, boundaryPop_id st.lpm hnp]
    cases st.lpm <;> rfl

/-- C4, witness for the amended theorem at a concrete line and boundary. -/
theorem C4_witness :
    (replace_page_markers "[1a][1b]x".toList 1).2 = 1 + pageCount "[1a][1b]x".toList ∧
    (sectionPhase false
        { outputs := [], cur := ["y".toList], sec := Sec.tok "D1".toList, pc := 3,
          lpm := some "[1a]x".toList, sc := 1 } (some "D2".toList)).pc = 2 := by
  have h := C4_amended "[1a][1b]x".toList 1 false
    { outputs := [], cur := ["y".toList], sec := Sec.tok "D1".toList, pc := 3,
      lpm := some "[1a]x".toList, sc := 1 } "D2".toList (by decide) (by decide)
  exact ⟨h.1, h.2⟩

/-- C5, counterexample: the empty document produces no output file at all —
the final flush is guarded by `if current_lines:` — contrary to the claim
that an empty buffer still yields a file. -/
theorem C5_counterexample : process_file 50 ([] : List Line) = [] := rfl

/-- C5, amended: the end-of-document flush happens only when the remaining
buffer is nonempty; since every processed line is appended to the buffer,
the buffer at end of document is empty exactly for the empty document, so
`process_file` produces no file exactly when the document has no lines. -/
theorem C5_amended (t : Nat) (doc : List Line) :
    process_file t doc = [] ↔ doc = [] := by
  constructor
  · intro h
    by_contra hne
    have hcur := foldl_cur_ne_nil (shouldSplitOf t doc) doc initState hne
    unfold process_file at h
    rcases List.append_eq_nil.mp h with ⟨_, h2⟩
    cases hcc : (doc.foldl (step (shouldSplitOf t doc)) initState).cur with
    | nil => exact hcur hcc
    | cons a b =>
      rw [hcc] at h2
      simp at h2
  · intro h
    subst h
    rfl

/-- C7, counterexample: with a failing first file and a readable second file
the batch aborts with the error — the second file's result (`.ok [1]` when
processed alone) is never produced. -/
theorem C7_counterexample :
    process_all_files 50 [Except.error (), Except.ok ["x".toList]] = Except.error () ∧
    process_all_files 50 [Except.ok ["x".toList]] = Except.ok [1] := by
  exact ⟨rfl, rfl⟩

theorem except_bind_ok {α β γ : Type} (x : β) (f : β → Except α γ) :
    (Except.ok x >>= f : Except α γ) = f x := rfl

/-- C7, amended: `process_all_files` has no per-file error handling: the
first read failure propagates out of the loop and aborts the batch, so the
files after the failing one are not processed at all. -/
theorem C7_amended (t : Nat) (pre rest : List (Except Unit (List Line)))
    (h : ∀ f ∈ pre, ∃ d, f = Except.ok d) :
    process_all_files t (pre ++ Except.error () :: rest) = Except.error () := by
  induction pre with
  | nil => rfl
  | cons f pre ih =>
    obtain ⟨d, rfl⟩ := h f (List.mem_cons_self f pre)
    have ih2 := ih fun x hx => h x (List.mem_cons_of_mem _ hx)
    unfold process_all_files at ih2 ⊢
    rw [List.cons_append, List.mapM_cons]
    rw [show ((Except.ok d).map fun doc => (process_file t doc).length) =
        Except.ok ((process_file t d).length) from rfl]
    rw [except_bind_ok]
    rw [ih2]
    rfl

/-- C7, witness for the amended theorem with one readable file before the
failure and one after it. -/
theorem C7_witness :
    process_all_files 50
      [Except.ok ["x".toList], Except.error (), Except.ok ["y".toList]] =
      Except.error () := by
  have h := C7_amended 50 [Except.ok ["x".toList]] [Except.ok ["y".toList]]
    (by intro f hf; simp only [List.mem_singleton] at hf; exact ⟨_, hf⟩)
  exact h

/-- C8, counterexample: applying the text-variant collapse to
`{x,{a},b}` yields `{a,b}`, and applying it again yields `b`: the collapse
is not idempotent, because a substitution can splice a new comma-brace group
out of the replacement and the following text. -/
theorem C8_counterexample :
    subF matchVariant ("{x,{a},b}".toList).length "{x,{a},b}".toList = "{a,b}".toList ∧
    subF matchVariant ("{a,b}".toList).length "{a,b}".toList = "b".toList ∧
    "{a,b}".toList ≠ "b".toList := by
  exact ⟨by decide, by decide, by decide⟩

/-- C8, amended: the text-variant collapse is idempotent exactly on lines
whose collapsed output contains no further occurrence of the variant
pattern; on such lines a second application leaves the output unchanged. -/
theorem C8_amended (l : Line)
    (h : searchP matchVariant (subF matchVariant l.length l) = none) :
    subF matchVariant (subF matchVariant l.length l).length (subF matchVariant l.length l) =
      subF matchVariant l.length l :=
  subF_no_match _ _ h

/-- C8, witness for the amended theorem on a line whose collapse leaves no
variant group. -/
theorem C8_witness :
    searchP matchVariant (subF matchVariant ("a{x,y}b".toList).length "a{x,y}b".toList) = none ∧
    subF matchVariant
        (subF matchVariant ("a{x,y}b".toList).length "a{x,y}b".toList).length
        (subF matchVariant ("a{x,y}b".toList).length "a{x,y}b".toList) =
      subF matchVariant ("a{x,y}b".toList).length "a{x,y}b".toList := by
  exact ⟨by decide, C8_amended "a{x,y}b".toList (by decide)⟩

/-! Field lemmas for the engine step, used by the remaining claims. -/

theorem appendPhase_outputs (st : SplitState) (pl : PLine) (line : Line) :
    (appendPhase st pl line).outputs = st.outputs := rfl

theorem appendPhase_sc (st : SplitState) (pl : PLine) (line : Line) :
    (appendPhase st pl line).sc = st.sc := rfl

theorem appendPhase_sec (st : SplitState) (pl : PLine) (line : Line) :
    (appendPhase st pl line).sec = st.sec := rfl

theorem sectionPhase_sc (ss : Bool) (st : SplitState) (t : Line) :
    (sectionPhase ss st (some t)).sc = if st.sc = 0 then st.sc + 1 else 1 := by
  simp only [sectionPhase]
  by_cases h0 : st.sc = 0
  · rw [if_pos h0, if_pos h0]
    by_cases hss : ss
    · rw [if_pos hss]
    · rw [if_neg hss]
  · rw [if_neg h0, if_neg h0]

theorem sectionPhase_sec_some (ss : Bool) (st : SplitState) (t : Line) :
    (sectionPhase ss st (some t)).sec = Sec.tok t := by
  simp only [sectionPhase]
  by_cases h0 : st.sc = 0
  · rw [if_pos h0]
    by_cases hss : ss
    · rw [if_pos hss]
    · rw [if_neg hss]
  · rw [if_neg h0]

theorem sectionPhase_outputs_of_ne (ss : Bool) (st : SplitState) (t : Line) (h0 : st.sc ≠ 0) :
    (sectionPhase ss st (some t)).outputs =
      st.outputs ++ [(st.sec, (boundaryPop st.cur st.lpm).1)] := by
  simp only [sectionPhase]
  rw [if_neg h0]

theorem sectionPhase_outputs_zero_split (ss : Bool) (st : SplitState) (t : Line)
    (h0 : st.sc = 0) (hss : ss = true) :
    (sectionPhase ss st (some t)).outputs =
      st.outputs ++ [(Sec.base, (boundaryPop st.cur st.lpm).1)] := by
  simp only [sectionPhase]
  rw [if_pos h0, hss, if_pos rfl]

theorem sectionPhase_outputs_zero_nosplit (ss : Bool) (st : SplitState) (t : Line)
    (h0 : st.sc = 0) (hss : ss = false) :
    (sectionPhase ss st (some t)).outputs = st.outputs := by
  simp only [sectionPhase]
  rw [if_pos h0, hss]
  simp

theorem step_sc_zero_iff (ss : Bool) (st : SplitState) (l : Line) :
    (step ss st l).sc = 0 ↔ st.sc = 0 ∧ (process_line l).tok = none := by
  unfold step
  rw [appendPhase_sc]
  cases h : (process_line l).tok with
  | none => simp [sectionPhase]
  | some t =>
    rw [sectionPhase_sc]
    by_cases h0 : st.sc = 0
    · simp [h0]
    · simp [h0]

theorem step_sec_ne_base (ss : Bool) (st : SplitState) (l : Line) (h : st.sec ≠ Sec.base) :
    (step ss st l).sec ≠ Sec.base := by
  unfold step
  rw [appendPhase_sec]
  cases ht : (process_line l).tok with
  | none => exact h
  | some t =>
    rw [sectionPhase_sec_some]
    simp

theorem baseIn_append_single (outs : List (Sec × List Line)) (q : Sec × List Line) :
    (∃ p ∈ outs ++ [q], p.1 = Sec.base) ↔ (∃ p ∈ outs, p.1 = Sec.base) ∨ q.1 = Sec.base := by
  constructor
  · rintro ⟨p, hp, hb⟩
    rcases List.mem_append.mp hp with h | h
    · exact Or.inl ⟨p, h, hb⟩
    · right
      simp only [List.mem_singleton] at h
      subst h
      exact hb
  · rintro (⟨p, hp, hb⟩ | hq)
    · exact ⟨p, List.mem_append_left _ hp, hb⟩
    · exact ⟨q, List.mem_append_right _ (by simp), hq⟩

theorem step_baseIn (ss : Bool) (st : SplitState) (l : Line) (hsec : st.sec ≠ Sec.base) :
    ((∃ p ∈ (step ss st l).outputs, p.1 = Sec.base) ↔
      (∃ p ∈ st.outputs, p.1 = Sec.base) ∨
        (ss = true ∧ st.sc = 0 ∧ (process_line l).tok ≠ none)) := by
  unfold step
  rw [appendPhase_outputs]
  cases ht : (process_line l).tok with
  | none => simp [sectionPhase]
  | some t =>
    by_cases h0 : st.sc = 0
    · cases hss : ss with
      | false =>
        rw [sectionPhase_outputs_zero_nosplit false st t h0 rfl]
        simp
      | true =>
        rw [sectionPhase_outputs_zero_split true st t h0 rfl]
        rw [baseIn_append_single]
        simp [h0]
    · rw [sectionPhase_outputs_of_ne ss st t h0]
      rw [baseIn_append_single]
      simp [h0, hsec]

theorem C6_fold (ss : Bool) :
    ∀ (ls : List Line) (st : SplitState), st.sec ≠ Sec.base →
      (((∃ p ∈ (ls.foldl (step ss) st).outputs, p.1 = Sec.base) ↔
        (∃ p ∈ st.outputs, p.1 = Sec.base) ∨
          (ss = true ∧ st.sc = 0 ∧ ∃ l ∈ ls, (process_line l).tok ≠ none)) ∧
       (ls.foldl (step ss) st).sec ≠ Sec.base) := by
  intro ls
  induction ls with
  | nil =>
    intro st h
    exact ⟨by simp, h⟩
  | cons l ls ih =>
    intro st hsec
    have hstep := step_baseIn ss st l hsec
    have hsec2 := step_sec_ne_base ss st l hsec
    have hsz := step_sc_zero_iff ss st l
    obtain ⟨ih1, ih2⟩ := ih (step ss st l) hsec2
    refine ⟨?_, ih2⟩
    rw [List.foldl_cons, ih1, hstep, hsz]
    constructor
    · rintro ((hb | ⟨hss, h0, htok⟩) | ⟨hss, ⟨h0, _⟩, l2, hl2, htok2⟩)
      · exact Or.inl hb
      · exact Or.inr ⟨hss, h0, l, List.mem_cons_self l ls, htok⟩
      · exact Or.inr ⟨hss, h0, l2, List.mem_cons_of_mem _ hl2, htok2⟩
    · rintro (hb | ⟨hss, h0, l2, hl2, htok2⟩)
      · exact Or.inl (Or.inl hb)
      · rcases List.mem_cons.mp hl2 with he | hm
        · subst he
          exact Or.inl (Or.inr ⟨hss, h0, htok2⟩)
        · by_cases htl : (process_line l).tok = none
          · exact Or.inr ⟨hss, ⟨h0, htl⟩, l2, hm, htok2⟩
          · exact Or.inl (Or.inr ⟨hss, h0, htl⟩)

/-- C6, counterexample: for the document `x / {a,{D1}xy}` with threshold 1,
the raw pre-scan sees a section token on line 1 (index `1 > 0`) after one
meaningful line, so the claimed condition for writing a `BASE` lead-in file
holds — yet the text-variant collapse rewrites the line to `{D1xy}`, the
main scan extracts no section token, and no `BASE` buffer is ever written. -/
theorem C6_counterexample :
    count_meaningful_lines_before_section ["x".toList, "{a,{D1}xy}".toList] = (1, some 1) ∧
    shouldSplitOf 1 ["x".toList, "{a,{D1}xy}".toList] = true ∧
    ¬ ∃ p ∈ process_file 1 ["x".toList, "{a,{D1}xy}".toList], p.1 = Sec.base := by
  exact ⟨by decide, by decide, by decide⟩

/-- C6, amended: `process_file` writes a `BASE` lead-in buffer if and only if
the pre-scan heuristic fired (at least `threshold` meaningful lines before
the first raw line whose text matches the section pattern, that line not
being the first) *and* the main scan extracts a section token from at least
one processed line; pre-scan detection runs on raw lines while the main scan
runs after variant collapse, so the two can disagree and the heuristic alone
does not guarantee the `BASE` file. -/
theorem C6_amended (t : Nat) (doc : List Line) :
    (∃ p ∈ process_file t doc, p.1 = Sec.base) ↔
      shouldSplitOf t doc = true ∧ ∃ l ∈ doc, (process_line l).tok ≠ none := by
  obtain ⟨h1, h2⟩ := C6_fold (shouldSplitOf t doc) doc initState (by decide)
  have hbase : (∃ p ∈ process_file t doc, p.1 = Sec.base) ↔
      ∃ p ∈ (doc.foldl (step (shouldSplitOf t doc)) initState).outputs, p.1 = Sec.base := by
    unfold process_file
    cases hc : (doc.foldl (step (shouldSplitOf t doc)) initState).cur.isEmpty with
    | true => simp [hc]
    | false =>
      simp [hc, baseIn_append_single, h2]
      constructor
      · rintro ⟨x, hx | ⟨hbs, _⟩⟩
        · exact ⟨x, hx⟩
        · exact absurd hbs.symm h2
      · rintro ⟨x, hx⟩
        exact ⟨x, Or.inl hx⟩
  rw [hbase, h1]
  simp [initState]

/-- Invariant for the dotted-marker claim: buffer lines are free of bare and
dotted markers, the `Page: 1` rendition of any pending line is dot-free, and
every flushed line is dot-free. -/
def DInv (st : SplitState) : Prop :=
  (∀ x ∈ st.cur, searchP matchPage x = none) ∧
  (∀ x ∈ st.cur, searchP matchDot x = none) ∧
  (∀ r, st.lpm = some r → searchP matchDot (pageSubOne r) = none) ∧
  (∀ p ∈ st.outputs, ∀ x ∈ p.2, searchP matchDot x = none)

theorem DInv_sectionPhase {ss : Bool} {st : SplitState} (h : DInv st) (tokOpt : Option Line) :
    DInv (sectionPhase ss st tokOpt) := by
  obtain ⟨h1, h2, h3, h4⟩ := h
  cases tokOpt with
  | none => exact ⟨h1, h2, h3, h4⟩
  | some t =>
    have hout : ∀ (b : Sec), ∀ p ∈ st.outputs ++ [(b, st.cur)], ∀ x ∈ p.2,
        searchP matchDot x = none := by
      intro b p hp x hx
      rcases List.mem_append.mp hp with hp | hp
      · exact h4 p hp x hx
      · simp only [List.mem_singleton] at hp
        subst hp
        exact h2 x hx
    simp only [sectionPhase, boundaryPop_id st.lpm h1]
    by_cases h0 : st.sc = 0
    · rw [if_pos h0]
      by_cases hss : ss
      · rw [if_pos hss]
        cases hl : st.lpm with
        | some r =>
          refine ⟨?_, ?_, ?_, ?_⟩
          · simp only [injectNew, List.mem_singleton]
            intro x hx
            subst hx
            exact pageSubOne_no_page r
          · simp only [injectNew, List.mem_singleton]
            intro x hx
            subst hx
            exact h3 r hl
          · simp [injectNew]
          · exact hout Sec.base
        | none =>
          refine ⟨?_, ?_, ?_, ?_⟩
          · simp [injectNew]
          · simp [injectNew]
          · simp [injectNew]
          · exact hout Sec.base
      · rw [if_neg hss]
        exact ⟨h1, h2, h3, h4⟩
    · rw [if_neg h0]
      cases hl : st.lpm with
      | some r =>
        refine ⟨?_, ?_, ?_, ?_⟩
        · simp only [injectNew, List.mem_singleton]
          intro x hx
          subst hx
          exact pageSubOne_no_page r
        · simp only [injectNew, List.mem_singleton]
          intro x hx
          subst hx
          exact h3 r hl
        · simp [injectNew]
        · exact hout st.sec
      | none =>
        refine ⟨?_, ?_, ?_, ?_⟩
        · simp [injectNew]
        · simp [injectNew]
        · simp [injectNew]
        · exact hout st.sec

theorem DInv_appendPhase {st : SplitState} (h : DInv st) (pl : PLine) (line : Line)
    (hflag : pl.hasPM = (searchP matchPage pl.text).isSome)
    (htext : searchP matchDot pl.text = none)
    (hline : pl.hasPM = true → searchP matchDot (pageSubOne line) = none) :
    DInv (appendPhase st pl line) := by
  obtain ⟨h1, h2, h3, h4⟩ := h
  refine ⟨?_, ?_, ?_, ?_⟩
  · intro x hx
    rcases List.mem_append.mp hx with hx | hx
    · exact h1 x hx
    · simp only [List.mem_singleton] at hx
      subst hx
      cases hb : pl.hasPM with
      | true => simp only [hb, if_pos rfl]; exact replace_no_page pl.text st.pc
      | false =>
        rw [hb] at hflag
        simp only [hb, Bool.false_eq_true, if_false]
        exact Option.not_isSome_iff_eq_none.mp (by rw [← hflag]; simp)
  · intro x hx
    rcases List.mem_append.mp hx with hx | hx
    · exact h2 x hx
    · simp only [List.mem_singleton] at hx
      subst hx
      cases hb : pl.hasPM with
      | true => simp only [hb, if_pos rfl]; exact replace_no_dot htext st.pc
      | false => simp only [hb, Bool.false_eq_true, if_false]; exact htext
  · intro r hr
    simp only [appendPhase] at hr
    by_cases hb : pl.hasPM
    · rw [if_pos hb] at hr
      by_cases h0 : st.sc = 0
      · rw [if_pos h0] at hr
        exact h3 r hr
      · rw [if_neg h0] at hr
        rw [Option.some_inj] at hr
        subst hr
        exact hline hb
    · rw [if_neg hb] at hr
      exact h3 r hr
  · exact h4

theorem DInv_step {ss : Bool} {st : SplitState} {line : Line} (h : DInv st)
    (htext : searchP matchDot (process_line line).text = none)
    (hline : (process_line line).hasPM = true → searchP matchDot (pageSubOne line) = none) :
    DInv (step ss st line) :=
  DInv_appendPhase (DInv_sectionPhase h (process_line line).tok) (process_line line) line
    (process_line_hasPM line) htext hline

theorem DInv_fold (ss : Bool) :
    ∀ (ls : List Line),
      (∀ l ∈ ls, searchP matchDot (process_line l).text = none ∧
        ((process_line l).hasPM = true → searchP matchDot (pageSubOne l) = none)) →
      ∀ (st : SplitState), DInv st → DInv (ls.foldl (step ss) st) := by
  intro ls
  induction ls with
  | nil => intro _ st h; exact h
  | cons l ls ih =>
    intro hd st h
    have hl := hd l (List.mem_cons_self l ls)
    exact ih (fun x hx => hd x (List.mem_cons_of_mem _ hx)) (step ss st l)
      (DInv_step h hl.1 hl.2)

/-- C9, counterexample: the dotted-marker deletion is a single left-to-right
pass, so on the line `[1[2b.2]a.1]x` deleting the inner `[2b.2]` splices the
new dotted marker `[1a.1]`, which survives `process_line` and reaches the
output file unchanged. -/
theorem C9_counterexample :
    process_file 50 ["[1[2b.2]a.1]x".toList] = [(Sec.unknown, ["[1a.1]x".toList])] ∧
    (searchP matchDot "[1a.1]x".toList).isSome = true := by
  exact ⟨by decide, by decide⟩

/-- C9, amended: a dotted marker never produces a page number, and no output
line of `process_file` contains a dotted marker, provided no line's one-pass
processing splices together a fresh dotted marker (deletions can juxtapose
fragments into one, as in `[1[2b.2]a.1]`) and no raw line that carries a bare
page marker — the only lines ever recorded for relocation and re-homed at a
boundary — still holds a dotted marker once its bare markers are rendered as
`Page: 1`.  Ordinary lines whose dotted markers are simply deleted (such as
`[1a.1]x`, which has no bare marker and is never recorded) satisfy both
provisos. -/
theorem C9_amended (t : Nat) (doc : List Line)
    (h : ∀ l ∈ doc, searchP matchDot (process_line l).text = none ∧
      ((process_line l).hasPM = true → searchP matchDot (pageSubOne l) = none)) :
    ∀ p ∈ process_file t doc, ∀ x ∈ p.2, searchP matchDot x = none := by
  have hf := DInv_fold (shouldSplitOf t doc) doc h initState
    ⟨by simp [initState], by simp [initState], by simp [initState], by simp [initState]⟩
  obtain ⟨_, h2, _, h4⟩ := hf
  intro p hp
  unfold process_file at hp
  rcases List.mem_append.mp hp with hp | hp
  · exact h4 p hp
  · by_cases hc : (doc.foldl (step (shouldSplitOf t doc)) initState).cur.isEmpty = true
    · rw [if_pos hc] at hp
      simp at hp
    · rw [if_neg hc] at hp
      simp only [List.mem_singleton] at hp
      subst hp
      exact h2

/-- C9, witness for the amended theorem on the document
`[1a.1]z / {D1} / [1a]x / {D2} / y`, whose hypotheses hold: the first line
carries a dotted marker (deleted in one pass, no bare marker, never
recorded), and the marker line `[1a]x` is dot-free under the `Page: 1`
rendition. -/
theorem C9_witness :
    (∀ l ∈ ["[1a.1]z".toList, "{D1}".toList, "[1a]x".toList, "{D2}".toList, "y".toList],
      searchP matchDot (process_line l).text = none ∧
        ((process_line l).hasPM = true → searchP matchDot (pageSubOne l) = none)) ∧
    ∀ p ∈ process_file 50
        ["[1a.1]z".toList, "{D1}".toList, "[1a]x".toList, "{D2}".toList, "y".toList],
      ∀ x ∈ p.2, searchP matchDot x = none := by
  exact ⟨by decide, C9_amended 50 _ (by decide)⟩

theorem step_no_tok (ss : Bool) (st : SplitState) (l : Line)
    (htok : (process_line l).tok = none) (h0 : st.sc = 0) (hl : st.lpm = none) :
    (step ss st l).outputs = st.outputs ∧
    (step ss st l).sec = st.sec ∧
    (step ss st l).sc = 0 ∧
    (step ss st l).lpm = none ∧
    (step ss st l).cur = (pstep (st.cur, st.pc) l).1 ∧
    (step ss st l).pc = (pstep (st.cur, st.pc) l).2 := by
  unfold step
  rw [htok]
  simp only [sectionPhase]
  unfold appendPhase pstep
  cases hb : (process_line l).hasPM with
  | true => simp [hb, h0, hl]
  | false => simp [hb, hl, h0]

theorem C10_fold (ss : Bool) :
    ∀ (ls : List Line), (∀ l ∈ ls, (process_line l).tok = none) →
    ∀ (st : SplitState), st.sc = 0 → st.lpm = none →
      ((ls.foldl (step ss) st).outputs = st.outputs ∧
       (ls.foldl (step ss) st).sec = st.sec ∧
       (ls.foldl (step ss) st).cur = (ls.foldl pstep (st.cur, st.pc)).1) := by
  intro ls
  induction ls with
  | nil => intro _ st h0 hl; exact ⟨rfl, rfl, rfl⟩
  | cons l ls ih =>
    intro h st h0 hl
    obtain ⟨ho, hs, hz, hlp, hcur, hpc⟩ :=
      step_no_tok ss st l (h l (List.mem_cons_self l ls)) h0 hl
    obtain ⟨iho, ihs, ihc⟩ := ih (fun x hx => h x (List.mem_cons_of_mem _ hx)) (step ss st l) hz hlp
    rw [List.foldl_cons, List.foldl_cons]
    refine ⟨by rw [iho, ho], by rw [ihs, hs], ?_⟩
    rw [ihc]
    have hacc : ((step ss st l).cur, (step ss st l).pc) = pstep (st.cur, st.pc) l := by
      rw [hcur, hpc]
    rw [hacc]

/-- C10, counterexample: no raw line of the single-line document
`{x,{D}12}y` matches the section-token pattern, yet the variant collapse
splices the token `{D12}` into the processed line, a `D12` section opens,
and the single output file is named `doc_D12.txt` instead of `doc.txt`. -/
theorem C10_counterexample :
    (∀ l ∈ ["{x,{D}12}y".toList], searchP matchSection l = none) ∧
    process_file_named "doc".toList 50 ["{x,{D}12}y".toList] =
      [("doc_D12.txt".toList, ["y".toList])] := by
  exact ⟨by decide, by decide⟩

/-- C10, amended: for every document in which no *processed* line yields a
section token (raw lines may even match the pattern — the pre-scan heuristic
may arm but never fires, since the split happens only when the main scan
extracts a token), `process_file` emits at most one file: none for the empty
document, and exactly one file named `<stem>.txt` holding every processed,
page-substituted line otherwise.  On raw lines the pattern and the main scan
can disagree because the variant collapse can splice a token together, as in
`{x,{D}12}y`. -/
theorem C10_amended (t : Nat) (stem : Line) (doc : List Line)
    (h : ∀ l ∈ doc, (process_line l).tok = none) :
    process_file_named stem t doc =
      if doc.isEmpty then [] else [(stem ++ ".txt".toList, processedSeq doc)] := by
  cases doc with
  | nil => rfl
  | cons l ls =>
    obtain ⟨ho, hs, hc⟩ := C10_fold (shouldSplitOf t (l :: ls)) (l :: ls) h initState rfl rfl
    have hne := foldl_cur_ne_nil (shouldSplitOf t (l :: ls)) (l :: ls) initState (by simp)
    have hcc : (List.foldl (step (shouldSplitOf t (l :: ls))) initState (l :: ls)).cur.isEmpty
        = false := by
      cases hfc : (List.foldl (step (shouldSplitOf t (l :: ls))) initState (l :: ls)).cur with
      | nil => exact absurd hfc hne
      | cons a b => rw [List.isEmpty_cons]
    simp only [process_file_named, process_file, hcc, Bool.false_eq_true, if_false]
    rw [ho, hs, hc]
    simp [initState, processedSeq, section_file_name]

/-- C10, witness for the amended theorem on a two-line document without
section tokens. -/
theorem C10_witness :
    (∀ l ∈ ["ab".toList, "[1a]cd".toList], (process_line l).tok = none) ∧
    process_file_named "d".toList 50 ["ab".toList, "[1a]cd".toList] =
      [("d.txt".toList, ["ab".toList, "Page: 1cd".toList])] := by
  refine ⟨by decide, ?_⟩
  have h := C10_amended 50 "d".toList ["ab".toList, "[1a]cd".toList] (by decide)
  rw [h]
  decide

end KagyurSplitter
